import Mathlib

/-!
Verification of the table-resolution engine of the sentinel-solutions-mcp
repository: the KQL query scanner (src/loaders/kqlParser.ts), the
table-vs-parser classifier and connector table extractor
(src/loaders/tableExtractor.ts), the depth-bounded cycle-safe parser
resolver (src/loaders/parserResolver.ts), and the orchestration in
the solution loader (src/loaders/solutionLoader.ts).

Modelling conventions:
- JavaScript strings are Lean String; character processing works on the
  underlying List Char (String.data).
- JavaScript Set (insertion-ordered, deduplicating) is List with addUnique;
  JavaScript Map is an association List with first-match lookup, updates
  append when the key is absent.
- Mutable state threaded through loops becomes explicit fold state.
- I/O (GitHub fetches, YAML/JSON parsing) is outside the engine; the
  embedding starts from already-parsed structured values, as the spec's
  external-collaborator boundary prescribes.
- All functions are structurally recursive (occasionally over an explicit
  fuel that provably dominates the source's recursion depth) so that every
  definition evaluates by kernel reduction.
-/

/-- JavaScript Set.add: append the element unless already present. -/
def addUnique (l : List String) (x : String) : List String :=
  if x ∈ l then l else l ++ [x]

/-- forEach over xs adding each element to the set l. -/
def addAll (l : List String) (xs : List String) : List String :=
  xs.foldl addUnique l

/-- JavaScript `o || d` for an optional string: undefined and the empty
string both fall back to the default. -/
def jsOr (o : Option String) (d : String) : String :=
  match o with
  | some s => if s = "" then d else s
  | none => d

theorem mem_addUnique (l : List String) (x y : String) :
    y ∈ addUnique l x ↔ y ∈ l ∨ y = x := by
  unfold addUnique
  by_cases h : x ∈ l
  · simp only [if_pos h]
    constructor
    · exact Or.inl
    · rintro (hy | rfl)
      · exact hy
      · exact h
  · simp [if_neg h]

theorem mem_addAll (xs : List String) (l : List String) (y : String) :
    y ∈ addAll l xs ↔ y ∈ l ∨ y ∈ xs := by
  induction xs generalizing l with
  | nil => simp [addAll]
  | cons x xs ih =>
      simp only [addAll, List.foldl_cons] at *
      rw [ih (addUnique l x), mem_addUnique]
      simp [or_assoc]

theorem nodup_addUnique (l : List String) (x : String) (h : l.Nodup) :
    (addUnique l x).Nodup := by
  unfold addUnique
  by_cases hx : x ∈ l
  · simpa [if_pos hx]
  · simpa [if_neg hx, List.nodup_append] using ⟨h, hx⟩

theorem nodup_addAll (xs : List String) (l : List String) (h : l.Nodup) :
    (addAll l xs).Nodup := by
  induction xs generalizing l with
  | nil => simpa [addAll]
  | cons x xs ih =>
      simpa [addAll, List.foldl_cons] using ih (addUnique l x) (nodup_addUnique l x h)

theorem addAll_nil_eq_nil_iff (xs : List String) : addAll [] xs = [] ↔ xs = [] := by
  constructor
  · intro h
    rcases xs with _ | ⟨x, rest⟩
    · rfl
    · exfalso
      have hx : x ∈ addAll [] (x :: rest) := by
        rw [mem_addAll]
        exact Or.inr (List.mem_cons_self x rest)
      rw [h] at hx
      exact (List.not_mem_nil x) hx
  · rintro rfl; rfl

namespace KqlParser

/-- KQL operators that indicate field context (not table references);
PIPE_BLOCK_COMMANDS in kqlParser.ts, in Set insertion order. -/
def PIPE_BLOCK_COMMANDS : List String :=
  ["project", "project-away", "project-keep", "project-rename",
   "project-reorder", "extend", "summarize", "distinct", "where", "order",
   "sort", "top", "limit", "take", "sample", "join", "union", "datatable",
   "evaluate", "invoke", "as"]

/-- Tokens that are not table names; NON_TABLE_TOKENS in kqlParser.ts. -/
def NON_TABLE_TOKENS : List String :=
  ["ago", "now", "true", "false", "null", "and", "or", "not", "between",
   "in", "contains", "startswith", "endswith", "has", "let", "print",
   "search"]

/-- Plural corrections for common table name mistakes;
PLURAL_TABLE_CORRECTIONS in kqlParser.ts (looked up by lowercased token, so
the mixed-case key is unreachable, exactly as in the source). -/
def PLURAL_TABLE_CORRECTIONS : List (String × String) :=
  [("securityevents", "SecurityEvent"), ("syslog", "Syslog"),
   ("syslogs", "Syslog"), ("commonlogs", "CommonSecurityLog"),
   ("commonSecurityLogs", "CommonSecurityLog"), ("signinlogs", "SigninLogs"),
   ("auditlogs", "AuditLogs")]

/-- String.toLowerCase (ASCII, as all compared text here is ASCII). -/
def lowerStr (s : String) : String :=
  ⟨s.data.map Char.toLower⟩

/-- A character of the TOKEN_PATTERN class [A-Za-z0-9_.]. -/
def isTokenChar (c : Char) : Bool :=
  c.isAlpha || c.isDigit || c == '_' || c == '.'

/-- A regex word character [A-Za-z0-9_]. -/
def isWordChar (c : Char) : Bool :=
  c.isAlpha || c.isDigit || c == '_'

/-- Regex whitespace class for the query text handled here. -/
def isWS (c : Char) : Bool :=
  c.isWhitespace

/-- Exact (case-sensitive) literal match at the start; returns the rest. -/
def stripExact : List Char → List Char → Option (List Char)
  | [], cs => some cs
  | _ :: _, [] => none
  | p :: ps, c :: cs => if c == p then stripExact ps cs else none

/-- Case-insensitive literal match at the start; returns the rest. -/
def stripCI : List Char → List Char → Option (List Char)
  | [], cs => some cs
  | _ :: _, [] => none
  | p :: ps, c :: cs => if c.toLower == p.toLower then stripCI ps cs else none

/-- Whether pat occurs at the start of l. -/
def isPrefixOfChars (pat l : List Char) : Bool :=
  (stripExact pat l).isSome

/-- String.indexOf for a literal pattern: index of the first occurrence. -/
def indexOfSub : List Char → List Char → Option Nat
  | [], pat => if isPrefixOfChars pat [] then some 0 else none
  | c :: rest, pat =>
      if isPrefixOfChars pat (c :: rest) then some 0
      else (indexOfSub rest pat).map (· + 1)

/-- String.includes for a literal pattern. -/
def containsSub (l pat : List Char) : Bool :=
  (indexOfSub l pat).isSome

/-- String.split on a single-character separator (JavaScript semantics:
always at least one piece, empty pieces kept). -/
def splitChar (sep : Char) : List Char → List (List Char)
  | [] => [[]]
  | c :: rest =>
      let r := splitChar sep rest
      if c == sep then [] :: r
      else
        match r with
        | [] => [[c]]
        | h :: t => (c :: h) :: t

/-- Array.join on a single-character separator. -/
def intercalateChar (sep : Char) : List (List Char) → List Char
  | [] => []
  | [l] => l
  | l :: rest => l ++ sep :: intercalateChar sep rest

def HTTP_MARKER : List Char := "http://".data

def HTTPS_MARKER : List Char := "https://".data

/-- One line of removeLineComments: a line containing http:// or https://
anywhere is returned unchanged; otherwise it is truncated at the first //. -/
def removeCommentFromLine (line : List Char) : List Char :=
  if containsSub line HTTP_MARKER || containsSub line HTTPS_MARKER then line
  else
    match indexOfSub line ['/', '/'] with
    | some i => line.take i
    | none => line

/-- removeLineComments of kqlParser.ts: split on newlines, clean each line,
join back. -/
def removeLineComments (q : List Char) : List Char :=
  intercalateChar '\n' ((splitChar '\n' q).map removeCommentFromLine)

/-- One attempted match of the regex \|\s*CMD\s+[^|]* (case-insensitive in
CMD) at the start of the text; on success returns the unmatched suffix
(which begins at the next pipe or the end). -/
def matchPipeCmd (cmd : List Char) (cs : List Char) : Option (List Char) :=
  match cs with
  | [] => none
  | c :: rest =>
      if c == '|' then
        match stripCI cmd (rest.dropWhile isWS) with
        | none => none
        | some afterCmd =>
            match afterCmd with
            | [] => none
            | d :: _ =>
                if isWS d then some (afterCmd.dropWhile (fun x => !(x == '|')))
                else none
      else none

/-- Global regex replace of the pipe-command pattern by a single pipe,
scanning left to right. The fuel starts at the text length; every successful
match consumes at least the leading pipe, so the fuel never runs out before
the text does. -/
def replacePipeCmdAux (cmd : List Char) : Nat → List Char → List Char
  | _, [] => []
  | 0, cs => cs
  | fuel + 1, c :: rest =>
      match matchPipeCmd cmd (c :: rest) with
      | some suffix => '|' :: replacePipeCmdAux cmd fuel suffix
      | none => c :: replacePipeCmdAux cmd fuel rest

def replacePipeCmd (cmd : List Char) (cs : List Char) : List Char :=
  replacePipeCmdAux cmd cs.length cs

/-- stripPipeCommandBlocks of kqlParser.ts: apply the replacement for each
command in Set insertion order. -/
def stripPipeCommandBlocks (q : List Char) : List Char :=
  PIPE_BLOCK_COMMANDS.foldl (fun r cmd => replacePipeCmd cmd.data r) q

/-- One attempted match of ARM_VARIABLE_PATTERN \[variables\('([^']+)'\)\]
at the start of the text; on success returns the full matched text and the
unmatched suffix. -/
def armMatchAt (cs : List Char) : Option (List Char × List Char) :=
  match stripExact "[variables('".data cs with
  | none => none
  | some r1 =>
      let name := r1.takeWhile (fun c => !(c == '\''))
      let r2 := r1.dropWhile (fun c => !(c == '\''))
      if name.isEmpty then none
      else
        match stripExact "')]".data r2 with
        | none => none
        | some r3 => some ("[variables('".data ++ name ++ "')]".data, r3)

/-- All (left-to-right, non-overlapping) full matches of
ARM_VARIABLE_PATTERN, as String.match with the global flag returns them.
Fuel as in replacePipeCmdAux. -/
def armFindAllAux : Nat → List Char → List (List Char)
  | _, [] => []
  | 0, _ => []
  | fuel + 1, c :: rest =>
      match armMatchAt (c :: rest) with
      | some (full, suffix) => full :: armFindAllAux fuel suffix
      | none => armFindAllAux fuel rest

def armFindAll (cs : List Char) : List (List Char) :=
  armFindAllAux cs.length cs

/-- Whether the token matches LET_ASSIGNMENT_PATTERN ^\s*let\s+(\w+)\s*= . -/
def letMatch (cs : List Char) : Bool :=
  match stripExact ['l', 'e', 't'] (cs.dropWhile isWS) with
  | none => false
  | some t2 =>
      match t2 with
      | [] => false
      | d :: _ =>
          if isWS d then
            let t3 := t2.dropWhile isWS
            if (t3.takeWhile isWordChar).isEmpty then false
            else
              match (t3.dropWhile isWordChar).dropWhile isWS with
              | '=' :: _ => true
              | _ => false
          else false

def headIsLetter : List Char → Bool
  | [] => false
  | c :: _ => c.isAlpha

/-- isValidTableToken of kqlParser.ts: nonempty, starts with a letter,
word characters only, length at least 2. -/
def isValidTableToken (token : String) : Bool :=
  if token.data.isEmpty then false
  else if !(headIsLetter token.data) then false
  else if !(token.data.all isWordChar) then false
  else if token.data.length < 2 then false
  else true

/-- resolveArmVariable of kqlParser.ts. token.match with a global regex
returns the array of full matches, so the source's match[1] is the second
full match (not the capture group); the looked-up value falls to null when
absent or empty. -/
def resolveArmVariable (token : String) (vars : List (String × String)) :
    Option String :=
  let ms := armFindAll token.data
  match ms[1]? with
  | some full =>
      match List.lookup (⟨full⟩ : String) vars with
      | some v => if v = "" then none else some v
      | none => none
  | none => none

/-- The keyword / let-head / pluralization / validation part of the
per-token forEach body of extractTablesFromQuery. -/
def processTokenRest (tables : List String) (token : String) : List String :=
  if NON_TABLE_TOKENS.contains (lowerStr token) then tables
  else if letMatch token.data then tables
  else
    let corrected :=
      match List.lookup (lowerStr token) PLURAL_TABLE_CORRECTIONS with
      | some c => if c = "" then token else c
      | none => token
    if isValidTableToken corrected then addUnique tables corrected else tables

/-- The full per-token forEach body: the ARM-variable branch first (only
when a bindings record was passed and the token matches the pattern, and
only an actually resolved value short-circuits), then the rest. -/
def processToken (tables : List String) (token : String)
    (vars : Option (List (String × String))) : List String :=
  match vars with
  | some vs =>
      if !(armFindAll token.data).isEmpty then
        match resolveArmVariable token vs with
        | some resolved => addUnique tables resolved
        | none => processTokenRest tables token
      else processTokenRest tables token
  | none => processTokenRest tables token

/-- Tokenizer: maximal runs of TOKEN_PATTERN characters, in order. -/
def tokenizeAux (cur : List Char) : List Char → List (List Char)
  | [] => if cur.isEmpty then [] else [cur.reverse]
  | c :: rest =>
      if isTokenChar c then tokenizeAux (c :: cur) rest
      else if cur.isEmpty then tokenizeAux [] rest
      else cur.reverse :: tokenizeAux [] rest

def tokenizeChars (cs : List Char) : List (List Char) :=
  tokenizeAux [] cs

/-- detectPipelineHeads of kqlParser.ts: only the first pipe segment is
tokenized; the tokens are collected into a Set. -/
def detectPipelineHeads (q : List Char) : List String :=
  match splitChar '|' q with
  | [] => []
  | s0 :: _ => ((tokenizeChars s0).map (fun t => (⟨t⟩ : String))).foldl addUnique []

/-- extractTablesFromQuery of kqlParser.ts. The empty string is falsy in
the source's guard; the typeof check is vacuous in the typed embedding. -/
def extractTablesFromQuery (query : String)
    (vars : Option (List (String × String))) : List String :=
  if query = "" then []
  else
    let cleaned := removeLineComments query.data
    let stripped := stripPipeCommandBlocks cleaned
    let heads := detectPipelineHeads stripped
    heads.foldl (fun tables token => processToken tables token vars) []

end KqlParser

namespace TableExtractor

/-- Whether suf is a suffix of s (String.endsWith). -/
def strEndsWith (s suf : String) : Bool :=
  KqlParser.isPrefixOfChars suf.data.reverse s.data.reverse

/-- Whether pre starts s (String.startsWith). -/
def strStartsWith (s pre : String) : Bool :=
  KqlParser.isPrefixOfChars pre.data s.data

/-- Standard Log Analytics tables (definitely not parsers); the allow-list
inside isLikelyParser of tableExtractor.ts. -/
def standardTables : List String :=
  ["SecurityEvent", "Syslog", "CommonSecurityLog", "SigninLogs", "AuditLogs",
   "Event", "Heartbeat", "Perf", "Alert", "SecurityAlert", "SecurityIncident",
   "OfficeActivity", "AzureActivity", "AzureDiagnostics"]

/-- Table-ish suffixes of isLikelyParser in tableExtractor.ts. -/
def tableSuffixes : List String :=
  ["Logs", "Events", "Users", "Traffic", "Alerts", "Data"]

/-- Vendor/platform name starts of isLikelyParser in tableExtractor.ts. -/
def tableNameStarts : List String :=
  ["AAD", "ADFS", "Azure", "AWS", "Office365", "Network"]

/-- isLikelyParser of tableExtractor.ts: the five table rules in source
order, otherwise the name could be a parser. -/
def isLikelyParser (name : String) : Bool :=
  if strEndsWith name "_CL" then false
  else if standardTables.contains name then false
  else if name.data.contains '_' && !(strEndsWith name "_CL") then false
  else if tableSuffixes.any (fun suffix => strEndsWith name suffix) then false
  else if tableNameStarts.any (fun p => strStartsWith name p) then false
  else true

/-- recordTable of tableExtractor.ts: a likely parser goes to the
parser-reference set; a table is recorded only if not already present, so
the first detection method is preserved. -/
def recordTable (tables : List (String × String)) (tableName method : String)
    (parserReferences : List String) : List (String × String) × List String :=
  if isLikelyParser tableName then (tables, addUnique parserReferences tableName)
  else if (List.lookup tableName tables).isSome then (tables, parserReferences)
  else (tables ++ [(tableName, method)], parserReferences)

structure GraphQuery where
  baseQuery : Option String
deriving DecidableEq

structure SampleQuery where
  query : Option String
deriving DecidableEq

structure DataTypeEntry where
  lastDataReceivedQuery : Option String
deriving DecidableEq

/-- connectivityCriterias[].value is a string or an array of strings. -/
inductive CriteriaValue where
  | single : String → CriteriaValue
  | multiple : List String → CriteriaValue
deriving DecidableEq

structure ConnectivityCriteria where
  value : Option CriteriaValue
deriving DecidableEq

/-- A connector definition document, restricted to the fields the extractor
reads. variableGroups lists, in document-walk order, the string entries of
each variables sub-object that extractVariables and traverseForVariables
encounter (the top-level variables object is walked first, as in the
source). -/
structure ConnectorDefinition where
  id : Option String
  title : Option String
  graphQueries : Option (List GraphQuery)
  sampleQueries : Option (List SampleQuery)
  dataTypes : Option (List DataTypeEntry)
  connectivityCriterias : Option (List ConnectivityCriteria)
  variableGroups : List (List (String × String))
deriving DecidableEq

/-- JavaScript object-key assignment: overwrite in place, else append. -/
def upsert (vs : List (String × String)) (k v : String) : List (String × String) :=
  if (List.lookup k vs).isSome then
    vs.map (fun kv => if kv.1 = k then (k, v) else kv)
  else vs ++ [(k, v)]

/-- extractVariables + traverseForVariables of tableExtractor.ts: fold every
variables group in walk order, later occurrences overwriting earlier ones. -/
def extractVariables (c : ConnectorDefinition) : List (String × String) :=
  c.variableGroups.foldl (fun vars grp => grp.foldl (fun vs kv => upsert vs kv.1 kv.2) vars) []

/-- The ordered stream of (candidate identifier, detection method) pairs on
which extractTablesFromConnector invokes recordTable: methods 1-4 in source
order (graphQueries baseQuery, sampleQueries query, dataTypes
lastDataReceivedQuery, connectivityCriterias value), then the
logAnalyticsTableId variable (method 5). Empty strings are falsy in the
source's field guards; extractTablesFromQuery of an empty string is empty
anyway, so the guard is kept only where the source tests the field itself. -/
def connectorCandidates (c : ConnectorDefinition) : List (String × String) :=
  let vars := extractVariables c
  (((c.graphQueries.getD []).enum.map (fun p =>
      match p.2.baseQuery with
      | some b =>
          (KqlParser.extractTablesFromQuery b (some vars)).map
            (fun t => (t, "graphQueries." ++ toString p.1 ++ ".baseQuery"))
      | none => [])).flatten)
  ++ (((c.sampleQueries.getD []).enum.map (fun p =>
      match p.2.query with
      | some b =>
          (KqlParser.extractTablesFromQuery b (some vars)).map
            (fun t => (t, "sampleQueries." ++ toString p.1 ++ ".query"))
      | none => [])).flatten)
  ++ (((c.dataTypes.getD []).enum.map (fun p =>
      match p.2.lastDataReceivedQuery with
      | some b =>
          (KqlParser.extractTablesFromQuery b (some vars)).map
            (fun t => (t, "dataTypes." ++ toString p.1 ++ ".lastDataReceivedQuery"))
      | none => [])).flatten)
  ++ (((c.connectivityCriterias.getD []).enum.map (fun p =>
      match p.2.value with
      | some (CriteriaValue.single s) =>
          if s = "" then []
          else (KqlParser.extractTablesFromQuery s (some vars)).map
            (fun t => (t, "connectivityCriterias." ++ toString p.1 ++ ".value"))
      | some (CriteriaValue.multiple ss) =>
          (ss.map (fun s =>
            (KqlParser.extractTablesFromQuery s (some vars)).map
              (fun t => (t, "connectivityCriterias." ++ toString p.1 ++ ".value")))).flatten
      | none => [])).flatten)
  ++ (match List.lookup "logAnalyticsTableId" vars with
      | some v => if v = "" then [] else [(v, "variables.logAnalyticsTableId")]
      | none => [])

structure ExtractionResult where
  tables : List (String × String)
  parserReferences : List String
  vars : List (String × String)
deriving DecidableEq

/-- The sequence of recordTable calls made by extractTablesFromConnector,
as a fold over any candidate stream. -/
def recordFold (ds : List (String × String))
    (st : List (String × String) × List String) :
    List (String × String) × List String :=
  ds.foldl (fun st p => recordTable st.1 p.1 p.2 st.2) st

/-- extractTablesFromConnector of tableExtractor.ts: extract the template
variables, then run recordTable over the candidate stream of the five
detection methods in source order, starting from an empty map and set. -/
def extractTablesFromConnector (c : ConnectorDefinition) : ExtractionResult :=
  let vars := extractVariables c
  let st := recordFold (connectorCandidates c) ([], [])
  ⟨st.1, st.2, vars⟩

/-- resolveTablePriority of tableExtractor.ts. -/
def resolveTablePriority (tables : List (String × String)) : Option String :=
  if tables.isEmpty then none
  else
    match tables.find? (fun kv => strEndsWith kv.1 "_CL") with
    | some kv => some kv.1
    | none =>
        match tables.find? (fun kv => strStartsWith kv.1 "ASIM" || strStartsWith kv.1 "Asim") with
        | some kv => some kv.1
        | none => (tables.head?).map Prod.fst

end TableExtractor

namespace ParserResolver

/-- MAX_RESOLUTION_DEPTH of parserResolver.ts. -/
def MAX_RESOLUTION_DEPTH : Nat := 5

/-- ParserInfo of parserResolver.ts: tables and parserReferences are Sets;
the reference set's insertion order drives the resolution loop. -/
structure ParserInfo where
  name : String
  tables : List String
  parserReferences : List String
deriving DecidableEq

/-- The parser cache: a Map from function name to ParserInfo. -/
abbrev ParserCatalog := List (String × ParserInfo)

/-- isLikelyParser of parserResolver.ts ("same logic as in tableExtractor",
per its comment, but without the suffix and name-start rules). -/
def isLikelyParser (name : String) : Bool :=
  if TableExtractor.strEndsWith name "_CL" then false
  else if standardTables.contains name then false
  else if name.data.contains '_' && !(TableExtractor.strEndsWith name "_CL") then false
  else true
where
  /-- The resolver's own copy of the standard-table list. -/
  standardTables : List String :=
    ["SecurityEvent", "Syslog", "CommonSecurityLog", "SigninLogs", "AuditLogs",
     "Event", "Heartbeat", "Perf", "Alert", "SecurityAlert", "SecurityIncident",
     "OfficeActivity", "AzureActivity", "AzureDiagnostics"]

/-- resolveParser of parserResolver.ts, with the shared mutable visited Set
threaded through explicitly: the result is (resolved tables, visited после).
The fuel only bounds structural recursion: a call with fuel f and depth d
where f + d is at least MAX_RESOLUTION_DEPTH + 2 never reaches the fuel-zero
fallback with an answer different from the depth guard's, because each level
consumes one fuel and increments depth, and the guard returns the same
empty result once depth exceeds the maximum. resolveParser below always
starts with that much fuel, so it computes exactly the source's recursion. -/
def resolveParserAux (cache : ParserCatalog) :
    Nat → String → List String → Nat → List String × List String
  | 0, _, visited, _ => ([], visited)
  | fuel + 1, parserName, visited, depth =>
      if parserName ∈ visited ∨ depth > MAX_RESOLUTION_DEPTH then ([], visited)
      else
        let visited1 := visited ++ [parserName]
        match List.lookup parserName cache with
        | none => ([], visited1)
        | some info =>
            info.parserReferences.foldl
              (fun acc r =>
                let p := resolveParserAux cache fuel r acc.2 (depth + 1)
                (addAll acc.1 p.1, p.2))
              (addAll [] info.tables, visited1)

/-- resolveParser(parserName, visited = new Set(), depth = 0). -/
def resolveParser (cache : ParserCatalog) (parserName : String)
    (visited : List String) (depth : Nat) : List String × List String :=
  resolveParserAux cache (MAX_RESOLUTION_DEPTH + 2) parserName visited depth

/-- resolveMultipleParsers of parserResolver.ts: each start name is resolved
with a fresh default visited Set and depth 0, results unioned in order. -/
def resolveMultipleParsers (cache : ParserCatalog) (parserNames : List String) :
    List String :=
  parserNames.foldl
    (fun allTables parserName => addAll allTables (resolveParser cache parserName [] 0).1) []

end ParserResolver

namespace SolutionLoader

/-- AnalysisIssue.issueType values of solutionLoader.ts. -/
inductive IssueType where
  | no_table_definitions
  | parser_tables_only
  | json_parse_error
  | missing_metadata
deriving DecidableEq

/-- An analysis issue (the human-readable message and file path carried by
the source record are presentation strings and are not modelled). -/
structure AnalysisIssue where
  solution : String
  connectorId : Option String
  issueType : IssueType
deriving DecidableEq

/-- A table mapping record, restricted to the fields the engine computes
(publisher/version/support tier and the GitHub URLs are metadata passed
through from I/O collaborators). -/
structure TableMapping where
  solution : String
  connectorId : String
  tableName : String
  isUnique : Bool
  detectionMethod : String
deriving DecidableEq

/-- The combined table set of analyzeConnector: the Set built from the
extraction's direct table keys followed by the tables the parser resolver
reached from its parser references. -/
def connectorAllTables (cache : ParserResolver.ParserCatalog)
    (c : TableExtractor.ConnectorDefinition) : List String :=
  let extraction := TableExtractor.extractTablesFromConnector c
  let resolvedParserTables :=
    ParserResolver.resolveMultipleParsers cache extraction.parserReferences
  addAll (addAll [] (extraction.tables.map Prod.fst)) resolvedParserTables

/-- analyzeConnector of solutionLoader.ts, from the point where the
connector JSON has been parsed (fetching and tolerant parsing are external;
their failure path records json_parse_error before this logic runs).
solutionName stands for the loaded metadata name. Returns the issues pushed
and the mappings pushed for this connector, isUnique still false. -/
def analyzeConnector (solutionName : String)
    (cache : ParserResolver.ParserCatalog)
    (c : TableExtractor.ConnectorDefinition) :
    List AnalysisIssue × List TableMapping :=
  let connectorId := jsOr c.id "unknown"
  let extraction := TableExtractor.extractTablesFromConnector c
  let allTables := connectorAllTables cache c
  if allTables = [] ∧ extraction.parserReferences = [] then
    ([⟨solutionName, some connectorId, IssueType.no_table_definitions⟩], [])
  else
    let issues :=
      if allTables = [] ∧ extraction.parserReferences ≠ [] then
        [⟨solutionName, some connectorId, IssueType.parser_tables_only⟩]
      else []
    let mappings := allTables.map (fun tableName =>
      { solution := solutionName
        connectorId := connectorId
        tableName := tableName
        isUnique := false
        detectionMethod :=
          jsOr (List.lookup tableName extraction.tables) "parser_resolution" })
    (issues, mappings)

/-- One solution of a corpus: its name, its parser catalog (loadParsers has
already run over the solution's Parsers directory), and its parsed
connector files in tree order. -/
structure SolutionEntry where
  name : String
  catalog : ParserResolver.ParserCatalog
  connectors : List TableExtractor.ConnectorDefinition

/-- The mappings pushed while analyzing one solution, in order. -/
def solutionMappings (sol : SolutionEntry) : List TableMapping :=
  (sol.connectors.map (fun c => (analyzeConnector sol.name sol.catalog c).2)).flatten

/-- The issues pushed while analyzing one solution, in order. -/
def solutionIssues (sol : SolutionEntry) : List AnalysisIssue :=
  (sol.connectors.map (fun c => (analyzeConnector sol.name sol.catalog c).1)).flatten

/-- this.tableOccurrences: get-or-zero then set(count + 1). -/
def bumpOcc (occ : List (String × Nat)) (t : String) : List (String × Nat) :=
  match List.lookup t occ with
  | some n => occ.map (fun kv => if kv.1 = t then (t, n + 1) else kv)
  | none => occ ++ [(t, 1)]

/-- The occurrence Map after all mappings have been pushed (each push
increments its table's counter). -/
def occFold (mappings : List TableMapping) : List (String × Nat) :=
  mappings.foldl (fun occ m => bumpOcc occ m.tableName) []

/-- calculateTableUniqueness of solutionLoader.ts: isUnique iff the
occurrence counter is exactly 1. -/
def calculateTableUniqueness (mappings : List TableMapping)
    (occ : List (String × Nat)) : List TableMapping :=
  mappings.map (fun m =>
    { m with isUnique := ((List.lookup m.tableName occ).getD 0) = 1 })

/-- analyze of solutionLoader.ts, from the point where the repository tree
and file contents are in hand: analyze every connector of every solution in
order, accumulating mappings, issues and table occurrences, then run the
uniqueness pass. Returns (issues, final mappings). -/
def analyzeAll (corpus : List SolutionEntry) :
    List AnalysisIssue × List TableMapping :=
  let mappings := (corpus.map solutionMappings).flatten
  let issues := (corpus.map solutionIssues).flatten
  (issues, calculateTableUniqueness mappings (occFold mappings))

end SolutionLoader

/-- Classification outcome in the spec's vocabulary. -/
inductive Classification where
  | table
  | parserRef
deriving DecidableEq

/-- Modelled from the spec: classify(identifier), the five table rules in
the spec's stated priority order, first applicable rule wins, otherwise a
parser reference. Stated from the claim's words, to be compared with the
source's isLikelyParser. -/
def classifySpec (name : String) : Classification :=
  if TableExtractor.strEndsWith name "_CL" then Classification.table
  else if TableExtractor.standardTables.contains name then Classification.table
  else if name.data.contains '_' && !(TableExtractor.strEndsWith name "_CL") then
    Classification.table
  else if TableExtractor.tableSuffixes.any (fun suffix => TableExtractor.strEndsWith name suffix) then
    Classification.table
  else if TableExtractor.tableNameStarts.any (fun p => TableExtractor.strStartsWith name p) then
    Classification.table
  else Classification.parserRef

/-- C7: the extractor's classifier evaluates the five table rules in the
claimed priority order and falls back to parser reference: it agrees with
the rule-list classifier on every identifier; moreover Foo_CL and Event
(allow-listed) classify as tables and the PascalCase name MyParserFunc,
matching no rule, classifies as a parser reference. -/
theorem isLikelyParser_priority_order :
    (∀ name, classifySpec name = Classification.table ↔
       TableExtractor.isLikelyParser name = false)
    ∧ classifySpec "Foo_CL" = Classification.table
    ∧ TableExtractor.isLikelyParser "Foo_CL" = false
    ∧ classifySpec "Event" = Classification.table
    ∧ TableExtractor.isLikelyParser "Event" = false
    ∧ classifySpec "MyParserFunc" = Classification.parserRef
    ∧ TableExtractor.isLikelyParser "MyParserFunc" = true := by
  refine ⟨fun name => ?_, by decide, by decide, by decide, by decide, by decide, by decide⟩
  by_cases h1 : TableExtractor.strEndsWith name "_CL" <;>
    by_cases h2 : TableExtractor.standardTables.contains name <;>
      by_cases h3 : name.data.contains '_' <;>
        by_cases h4 : TableExtractor.tableSuffixes.any (fun suffix => TableExtractor.strEndsWith name suffix) <;>
          by_cases h5 : TableExtractor.tableNameStarts.any (fun p => TableExtractor.strStartsWith name p) <;>
            simp [classifySpec, TableExtractor.isLikelyParser, h1, h2, h3, h4, h5]

/-- C6 counterexample: the two isLikelyParser functions are not the same
function; they disagree on FooLogs (table to the extractor by the Logs
suffix rule, parser reference to the resolver, which lacks that rule). -/
theorem isLikelyParser_agreement_refuted :
    ¬ (TableExtractor.isLikelyParser "FooLogs" = ParserResolver.isLikelyParser "FooLogs") := by
  decide

/-- C6 amended: the two classifiers share the _CL, allow-list and
underscore rules, but the resolver's version omits the suffix and
name-start rules: the extractor's classifier equals the resolver's
conjoined with "no table-ish suffix" and "no vendor/platform name start". -/
theorem isLikelyParser_extractor_eq_resolver_with_suffix_rules :
    ∀ name, TableExtractor.isLikelyParser name =
      (ParserResolver.isLikelyParser name
        && !(TableExtractor.tableSuffixes.any (fun suffix => TableExtractor.strEndsWith name suffix))
        && !(TableExtractor.tableNameStarts.any (fun p => TableExtractor.strStartsWith name p))) := by
  intro name
  unfold TableExtractor.isLikelyParser ParserResolver.isLikelyParser
  have hst : ParserResolver.isLikelyParser.standardTables = TableExtractor.standardTables := rfl
  rw [hst]
  cases h1 : TableExtractor.strEndsWith name "_CL" <;>
    cases h2 : TableExtractor.standardTables.contains name <;>
      cases h3 : name.data.contains '_' <;>
        cases h4 : TableExtractor.tableSuffixes.any (fun suffix => TableExtractor.strEndsWith name suffix) <;>
          cases h5 : TableExtractor.tableNameStarts.any (fun p => TableExtractor.strStartsWith name p) <;>
            simp [h1, h2, h3, h4, h5]

/-- C8: at the failing input, a query whose pipeline head is exactly an
ARM-style variable reference with a binding for its name, the scanner does
not substitute the bound value: the tokenizer's character class excludes
the brackets, so the reference is split into the fragment tokens
"variables" and the bare variable name, both of which are accepted, and the
resolution branch never fires. -/
theorem extractTablesFromQuery_arm_variable_eval :
    KqlParser.extractTablesFromQuery "[variables('logAnalyticsTableId')]"
        (some [("logAnalyticsTableId", "MyTable_CL")])
      = ["variables", "logAnalyticsTableId"] := by
  decide

/-- Membership in a foldl that unions the resolutions of a list of names. -/
theorem mem_foldl_addAll (f : String → List String) (names : List String)
    (acc : List String) (x : String) :
    x ∈ names.foldl (fun a n => addAll a (f n)) acc ↔
      x ∈ acc ∨ ∃ n ∈ names, x ∈ f n := by
  induction names generalizing acc with
  | nil => simp
  | cons n rest ih =>
      simp only [List.foldl_cons]
      rw [ih (addAll acc (f n)), mem_addAll]
      constructor
      · rintro ((h | h) | ⟨m, hm, hx⟩)
        · exact Or.inl h
        · exact Or.inr ⟨n, List.mem_cons_self n rest, h⟩
        · exact Or.inr ⟨m, List.mem_cons_of_mem n hm, hx⟩
      · rintro (h | ⟨m, hm, hx⟩)
        · exact Or.inl (Or.inl h)
        · rcases List.mem_cons.mp hm with rfl | hm
          · exact Or.inl (Or.inr hx)
          · exact Or.inr ⟨m, hm, hx⟩

/-- C1: resolveParser is total, its entry guard (name already visited, or
depth beyond MAX_RESOLUTION_DEPTH) is a defined terminal case returning an
empty set with visited unchanged, and a direct reference cycle between two
parsers is silently absorbed: resolving A in the catalog where A references
B and B references A yields exactly the union of the direct tables of the
two sides, without any error case. -/
theorem resolveParser_terminal_cases :
    (∀ cache parserName visited depth,
        parserName ∈ visited ∨ depth > ParserResolver.MAX_RESOLUTION_DEPTH →
        ParserResolver.resolveParser cache parserName visited depth = ([], visited))
    ∧ (∀ tA tB x,
        x ∈ (ParserResolver.resolveParser
              [("A", ⟨"A", tA, ["B"]⟩), ("B", ⟨"B", tB, ["A"]⟩)] "A" [] 0).1
          ↔ x ∈ tA ∨ x ∈ tB) := by
  constructor
  · intro cache parserName visited depth h
    show ParserResolver.resolveParserAux cache (Nat.succ 6) parserName visited depth
        = ([], visited)
    rw [ParserResolver.resolveParserAux.eq_2]
    exact if_pos h
  · intro tA tB x
    have hres : (ParserResolver.resolveParser
          [("A", ⟨"A", tA, ["B"]⟩), ("B", ⟨"B", tB, ["A"]⟩)] "A" [] 0).1
        = addAll (addAll [] tA) (addAll [] tB) := by
      simp [ParserResolver.resolveParser, ParserResolver.MAX_RESOLUTION_DEPTH,
        ParserResolver.resolveParserAux, List.lookup, addAll]
    rw [hres, mem_addAll, mem_addAll, mem_addAll]
    simp

/-- Witness for C1's guarded part at a concrete terminal input. -/
theorem resolveParser_terminal_cases_witness :
    ("X" ∈ ["X"] ∨ 0 > ParserResolver.MAX_RESOLUTION_DEPTH)
    ∧ ParserResolver.resolveParser [] "X" ["X"] 0 = ([], ["X"]) :=
  ⟨Or.inl (by decide),
   resolveParser_terminal_cases.1 [] "X" ["X"] 0 (Or.inl (by decide))⟩

/-- C2: on the linear chain P0 references P1 references ... references P6,
resolving the head collects exactly the direct tables of the parsers at
depths 0 through MAX_RESOLUTION_DEPTH = 5 (P0 .. P5); the parser at the
sixth hop contributes nothing. -/
theorem resolveParser_chain_depth_bound (x0 x1 x2 x3 x4 x5 x6 : String) :
    ∀ y, y ∈ (ParserResolver.resolveParser
        [("P0", ⟨"P0", [x0], ["P1"]⟩), ("P1", ⟨"P1", [x1], ["P2"]⟩),
         ("P2", ⟨"P2", [x2], ["P3"]⟩), ("P3", ⟨"P3", [x3], ["P4"]⟩),
         ("P4", ⟨"P4", [x4], ["P5"]⟩), ("P5", ⟨"P5", [x5], ["P6"]⟩),
         ("P6", ⟨"P6", [x6], []⟩)] "P0" [] 0).1
      ↔ (y = x0 ∨ y = x1 ∨ y = x2 ∨ y = x3 ∨ y = x4 ∨ y = x5) := by
  intro y
  have hres : (ParserResolver.resolveParser
        [("P0", ⟨"P0", [x0], ["P1"]⟩), ("P1", ⟨"P1", [x1], ["P2"]⟩),
         ("P2", ⟨"P2", [x2], ["P3"]⟩), ("P3", ⟨"P3", [x3], ["P4"]⟩),
         ("P4", ⟨"P4", [x4], ["P5"]⟩), ("P5", ⟨"P5", [x5], ["P6"]⟩),
         ("P6", ⟨"P6", [x6], []⟩)] "P0" [] 0).1
      = addAll (addAll [] [x0]) (addAll (addAll [] [x1]) (addAll (addAll [] [x2])
          (addAll (addAll [] [x3]) (addAll (addAll [] [x4]) (addAll (addAll [] [x5]) []))))) := by
    simp [ParserResolver.resolveParser, ParserResolver.MAX_RESOLUTION_DEPTH,
      ParserResolver.resolveParserAux, List.lookup, addAll]
  rw [hres]
  simp only [mem_addAll, List.mem_singleton, List.not_mem_nil, or_false, false_or]

/-- C10: resolveMultipleParsers is the union, over the start names, of
resolveParser run with a fresh empty visited set and depth 0 — so one start
name never suppresses tables reachable from another — and, as a set, its
result does not depend on the iteration order over the start names. -/
theorem resolveMultipleParsers_union :
    (∀ cache names x,
        x ∈ ParserResolver.resolveMultipleParsers cache names ↔
          ∃ n ∈ names, x ∈ (ParserResolver.resolveParser cache n [] 0).1)
    ∧ (∀ cache names names2 x, names.Perm names2 →
        (x ∈ ParserResolver.resolveMultipleParsers cache names ↔
         x ∈ ParserResolver.resolveMultipleParsers cache names2)) := by
  have hmem : ∀ cache names x,
      x ∈ ParserResolver.resolveMultipleParsers cache names ↔
        ∃ n ∈ names, x ∈ (ParserResolver.resolveParser cache n [] 0).1 := by
    intro cache names x
    unfold ParserResolver.resolveMultipleParsers
    rw [mem_foldl_addAll (fun n => (ParserResolver.resolveParser cache n [] 0).1) names [] x]
    simp
  refine ⟨hmem, fun cache names names2 x hperm => ?_⟩
  rw [hmem, hmem]
  constructor
  · rintro ⟨n, hn, hx⟩; exact ⟨n, hperm.mem_iff.mp hn, hx⟩
  · rintro ⟨n, hn, hx⟩; exact ⟨n, hperm.mem_iff.mpr hn, hx⟩

/-- Witness for C10's order-independence part at a concrete permutation. -/
theorem resolveMultipleParsers_union_witness :
    (["A", "B"].Perm ["B", "A"])
    ∧ (("T" ∈ ParserResolver.resolveMultipleParsers
          [("A", ⟨"A", ["T"], []⟩), ("B", ⟨"B", [], []⟩)] ["A", "B"]) ↔
       "T" ∈ ParserResolver.resolveMultipleParsers
          [("A", ⟨"A", ["T"], []⟩), ("B", ⟨"B", [], []⟩)] ["B", "A"]) :=
  ⟨by decide,
   resolveMultipleParsers_union.2
     [("A", ⟨"A", ["T"], []⟩), ("B", ⟨"B", [], []⟩)] ["A", "B"] ["B", "A"] "T" (by decide)⟩

theorem lookup_append_str (l1 l2 : List (String × String)) (a : String) :
    List.lookup a (l1 ++ l2) =
      (match List.lookup a l1 with
       | some v => some v
       | none => List.lookup a l2) := by
  induction l1 with
  | nil => simp [List.lookup]
  | cons kv rest ih =>
      obtain ⟨k, v⟩ := kv
      by_cases h : a = k
      · subst h
        simp [List.lookup]
      · have hk : (a == k) = false := beq_eq_false_iff_ne.mpr h
        simp [List.lookup, hk, ih]

theorem lookup_eq_none_iff_str (l : List (String × String)) (a : String) :
    List.lookup a l = none ↔ a ∉ l.map Prod.fst := by
  induction l with
  | nil => simp [List.lookup]
  | cons kv rest ih =>
      obtain ⟨k, v⟩ := kv
      by_cases h : a = k
      · subst h
        simp [List.lookup]
      · have hk : (a == k) = false := beq_eq_false_iff_ne.mpr h
        simp [List.lookup, hk, ih, h]

/-- Looking up a table in the state after a run of recordTable calls: a
value already recorded survives unchanged; otherwise a likely-parser name
is never recorded, and a table name gets the method of its first candidate
occurrence. -/
theorem recordFold_lookup (ds : List (String × String)) :
    ∀ (ts : List (String × String)) (ps : List String) (t : String),
    List.lookup t (TableExtractor.recordFold ds (ts, ps)).1 =
      (match List.lookup t ts with
       | some m => some m
       | none =>
           if TableExtractor.isLikelyParser t then none else List.lookup t ds) := by
  induction ds with
  | nil =>
      intro ts ps t
      cases h : List.lookup t ts <;> simp [TableExtractor.recordFold, h, List.lookup]
  | cons d rest ih =>
      intro ts ps t
      obtain ⟨n, m⟩ := d
      by_cases hlp : TableExtractor.isLikelyParser n
      · have hstep : TableExtractor.recordFold ((n, m) :: rest) (ts, ps)
            = TableExtractor.recordFold rest (ts, addUnique ps n) := by
          simp [TableExtractor.recordFold, TableExtractor.recordTable, hlp]
        rw [hstep, ih ts (addUnique ps n) t]
        cases h : List.lookup t ts
        · by_cases hlt : TableExtractor.isLikelyParser t
          · simp [hlt]
          · have htn : (t == n) = false :=
              beq_eq_false_iff_ne.mpr (fun he => hlt (he ▸ hlp))
            simp [hlt, List.lookup, htn]
        · simp
      · by_cases hin : (List.lookup n ts).isSome
        · have hstep : TableExtractor.recordFold ((n, m) :: rest) (ts, ps)
              = TableExtractor.recordFold rest (ts, ps) := by
            simp [TableExtractor.recordFold, TableExtractor.recordTable, hlp, hin]
          rw [hstep, ih ts ps t]
          cases h : List.lookup t ts
          · by_cases hlt : TableExtractor.isLikelyParser t
            · simp [hlt]
            · have htn : (t == n) = false := by
                refine beq_eq_false_iff_ne.mpr (fun he => ?_)
                rw [← he, h] at hin
                simp at hin
              simp [hlt, List.lookup, htn]
          · simp
        · have hstep : TableExtractor.recordFold ((n, m) :: rest) (ts, ps)
              = TableExtractor.recordFold rest (ts ++ [(n, m)], ps) := by
            simp [TableExtractor.recordFold, TableExtractor.recordTable, hlp, hin]
          rw [hstep, ih (ts ++ [(n, m)]) ps t, lookup_append_str]
          cases h : List.lookup t ts
          · by_cases htn : t = n
            · subst htn
              simp [List.lookup, hlp]
            · have htn2 : (t == n) = false := beq_eq_false_iff_ne.mpr htn
              simp [List.lookup, htn2]
          · simp

/-- A run of recordTable calls keeps the table keys duplicate-free. -/
theorem recordFold_nodup (ds : List (String × String)) :
    ∀ (ts : List (String × String)) (ps : List String),
    (ts.map Prod.fst).Nodup →
    ((TableExtractor.recordFold ds (ts, ps)).1.map Prod.fst).Nodup := by
  induction ds with
  | nil => intro ts ps h; simpa [TableExtractor.recordFold] using h
  | cons d rest ih =>
      intro ts ps h
      obtain ⟨n, m⟩ := d
      by_cases hlp : TableExtractor.isLikelyParser n
      · have hstep : TableExtractor.recordFold ((n, m) :: rest) (ts, ps)
            = TableExtractor.recordFold rest (ts, addUnique ps n) := by
          simp [TableExtractor.recordFold, TableExtractor.recordTable, hlp]
        rw [hstep]; exact ih ts (addUnique ps n) h
      · by_cases hin : (List.lookup n ts).isSome
        · have hstep : TableExtractor.recordFold ((n, m) :: rest) (ts, ps)
              = TableExtractor.recordFold rest (ts, ps) := by
            simp [TableExtractor.recordFold, TableExtractor.recordTable, hlp, hin]
          rw [hstep]; exact ih ts ps h
        · have hstep : TableExtractor.recordFold ((n, m) :: rest) (ts, ps)
              = TableExtractor.recordFold rest (ts ++ [(n, m)], ps) := by
            simp [TableExtractor.recordFold, TableExtractor.recordTable, hlp, hin]
          rw [hstep]
          refine ih (ts ++ [(n, m)]) ps ?_
          have hnot : n ∉ ts.map Prod.fst := by
            rw [← lookup_eq_none_iff_str]
            cases hx : List.lookup n ts
            · rfl
            · rw [hx] at hin; simp at hin
          rw [show (ts ++ [(n, m)]).map Prod.fst = ts.map Prod.fst ++ [n] by simp]
          rw [List.nodup_append]
          refine ⟨h, List.nodup_singleton n, ?_⟩
          intro a ha hb
          rw [List.mem_singleton] at hb
          exact hnot (hb ▸ ha)

/-- C3: within one connector's extraction pass, each table name is recorded
at most once, and the method it carries is that of its first candidate
occurrence in the fixed evaluation order (graphQueries baseQuery, then
sampleQueries query, then dataTypes lastDataReceivedQuery, then
connectivityCriterias value, then the logAnalyticsTableId binding), the
order in which connectorCandidates lists them; names classified as parser
references are never recorded, and a later detection of a present name
never changes its method. -/
theorem extractTables_first_method_wins (c : TableExtractor.ConnectorDefinition) :
    (((TableExtractor.extractTablesFromConnector c).tables.map Prod.fst).Nodup)
    ∧ ∀ t, List.lookup t (TableExtractor.extractTablesFromConnector c).tables =
        (if TableExtractor.isLikelyParser t then none
         else List.lookup t (TableExtractor.connectorCandidates c)) := by
  constructor
  · exact recordFold_nodup (TableExtractor.connectorCandidates c) [] [] (by simp)
  · intro t
    show List.lookup t
        (TableExtractor.recordFold (TableExtractor.connectorCandidates c) ([], [])).1 = _
    rw [recordFold_lookup]
    simp [List.lookup]

theorem splitChar_ne_nil (sep : Char) (q : List Char) :
    KqlParser.splitChar sep q ≠ [] := by
  induction q with
  | nil => simp [KqlParser.splitChar]
  | cons c rest ih =>
      by_cases hc : c == sep
      · simp [KqlParser.splitChar, hc]
      · cases hr : KqlParser.splitChar sep rest with
        | nil => exact absurd hr ih
        | cons h t => simp [KqlParser.splitChar, hc, hr]

theorem splitChar_sep_not_mem (sep : Char) (q : List Char) :
    ∀ l ∈ KqlParser.splitChar sep q, sep ∉ l := by
  induction q with
  | nil =>
      intro l hl
      simp [KqlParser.splitChar] at hl
      subst hl; simp
  | cons c rest ih =>
      intro l hl
      by_cases hc : c == sep
      · simp only [KqlParser.splitChar, hc, if_true] at hl
        rcases List.mem_cons.mp hl with rfl | hl
        · simp
        · exact ih l hl
      · have hcs : c ≠ sep := by simpa using hc
        cases hr : KqlParser.splitChar sep rest with
        | nil => exact absurd hr (splitChar_ne_nil sep rest)
        | cons h t =>
            simp only [KqlParser.splitChar, hc, if_false, hr] at hl
            rcases List.mem_cons.mp hl with rfl | hl
            · intro hmem
              rcases List.mem_cons.mp hmem with he | hmem
              · exact hcs he.symm
              · exact ih h (by rw [hr]; exact List.mem_cons_self h t) hmem
            · exact ih l (by rw [hr]; exact List.mem_cons_of_mem h hl)

theorem splitChar_of_not_mem (sep : Char) (l : List Char) (h : sep ∉ l) :
    KqlParser.splitChar sep l = [l] := by
  induction l with
  | nil => simp [KqlParser.splitChar]
  | cons c rest ih =>
      have hc : ¬(c == sep) = true := by
        simp only [beq_iff_eq]
        intro he
        exact h (he ▸ List.mem_cons_self c rest)
      have hrest : sep ∉ rest := fun hm => h (List.mem_cons_of_mem c hm)
      simp [KqlParser.splitChar, hc, ih hrest]

theorem splitChar_append_sep (sep : Char) (l M : List Char) (h : sep ∉ l) :
    KqlParser.splitChar sep (l ++ sep :: M) = l :: KqlParser.splitChar sep M := by
  induction l with
  | nil => simp [KqlParser.splitChar]
  | cons c rest ih =>
      have hc : ¬(c == sep) = true := by
        simp only [beq_iff_eq]
        intro he
        exact h (he ▸ List.mem_cons_self c rest)
      have hrest : sep ∉ rest := fun hm => h (List.mem_cons_of_mem c hm)
      have := ih hrest
      cases hr : KqlParser.splitChar sep (rest ++ sep :: M) with
      | nil => exact absurd hr (splitChar_ne_nil sep _)
      | cons hd tl =>
          rw [hr] at this
          obtain ⟨rfl, rfl⟩ : hd = rest ∧ tl = KqlParser.splitChar sep M := by
            exact ⟨by injection this, by injection this⟩
          simp [KqlParser.splitChar, hc, hr]

theorem splitChar_intercalateChar (sep : Char) :
    ∀ ls : List (List Char), ls ≠ [] → (∀ l ∈ ls, sep ∉ l) →
    KqlParser.splitChar sep (KqlParser.intercalateChar sep ls) = ls := by
  intro ls
  induction ls with
  | nil => intro h; exact absurd rfl h
  | cons l rest ih =>
      intro _ hnomem
      cases rest with
      | nil =>
          simp only [KqlParser.intercalateChar]
          exact splitChar_of_not_mem sep l (hnomem l (List.mem_cons_self l []))
      | cons l2 rest2 =>
          show KqlParser.splitChar sep (l ++ sep :: KqlParser.intercalateChar sep (l2 :: rest2))
              = l :: (l2 :: rest2)
          rw [splitChar_append_sep sep l _ (hnomem l (List.mem_cons_self l _))]
          rw [ih (by simp) (fun x hx => hnomem x (List.mem_cons_of_mem l hx))]

theorem removeCommentFromLine_sep_not_mem (sep : Char) (l : List Char)
    (h : sep ∉ l) : sep ∉ KqlParser.removeCommentFromLine l := by
  unfold KqlParser.removeCommentFromLine
  by_cases hurl : (KqlParser.containsSub l KqlParser.HTTP_MARKER
      || KqlParser.containsSub l KqlParser.HTTPS_MARKER) = true
  · simpa [hurl] using h
  · simp only [Bool.not_eq_true] at hurl
    simp only [hurl]
    cases hidx : KqlParser.indexOfSub l ['/', '/'] with
    | none => simpa using h
    | some i =>
        simp only []
        intro hmem
        exact h (List.take_subset i l hmem)

/-- C9 counterexample: in the single-line query "// Syslog http://a" the
comment marker is the first // at index 0, outside the URL that starts
later, and Syslog occurs only inside the comment text; yet the identifier
Syslog is in the scanned result, because the line is kept whole as soon as
it contains http:// anywhere. -/
theorem removeLineComments_url_exception_refuted :
    "Syslog" ∈ KqlParser.extractTablesFromQuery "// Syslog http://a" none
    ∧ KqlParser.indexOfSub "// Syslog http://a".data ['/', '/'] = some 0
    ∧ KqlParser.indexOfSub "// Syslog http://a".data KqlParser.HTTP_MARKER = some 10 := by
  refine ⟨by decide, by decide, by decide⟩

/-- C9 amended: comment stripping is per line: splitting the cleaned query
on newlines gives exactly the original lines each passed through
removeCommentFromLine, so every line that contains http:// or https://
anywhere survives verbatim (even when the comment marker lies outside the
URL, comment text on such a line is kept), and every other line is
truncated at its first //; in particular "// comment\nSyslog" scans to
exactly the Syslog table and a URL line is never truncated. -/
theorem removeLineComments_per_line :
    (∀ q : List Char,
        KqlParser.splitChar '\n' (KqlParser.removeLineComments q)
          = (KqlParser.splitChar '\n' q).map KqlParser.removeCommentFromLine)
    ∧ (∀ q : List Char, ∀ l ∈ KqlParser.splitChar '\n' q,
        (KqlParser.containsSub l KqlParser.HTTP_MARKER
          || KqlParser.containsSub l KqlParser.HTTPS_MARKER) = true →
        l ∈ KqlParser.splitChar '\n' (KqlParser.removeLineComments q))
    ∧ KqlParser.extractTablesFromQuery "// comment\nSyslog" none = ["Syslog"]
    ∧ KqlParser.removeLineComments "https://example.com/p // Syslog".data
        = "https://example.com/p // Syslog".data := by
  have hlines : ∀ q : List Char,
      KqlParser.splitChar '\n' (KqlParser.removeLineComments q)
        = (KqlParser.splitChar '\n' q).map KqlParser.removeCommentFromLine := by
    intro q
    unfold KqlParser.removeLineComments
    refine splitChar_intercalateChar '\n' _ (by simp [splitChar_ne_nil]) ?_
    intro l hl
    rw [List.mem_map] at hl
    obtain ⟨l0, hl0, rfl⟩ := hl
    exact removeCommentFromLine_sep_not_mem '\n' l0 (splitChar_sep_not_mem '\n' q l0 hl0)
  refine ⟨hlines, ?_, by decide, by decide⟩
  intro q l hl hurl
  have hkeep : KqlParser.removeCommentFromLine l = l := by
    unfold KqlParser.removeCommentFromLine
    rw [if_pos hurl]
  rw [hlines q]
  rw [← hkeep]
  exact List.mem_map_of_mem KqlParser.removeCommentFromLine hl

/-- Witness for C9's amended per-line property at a concrete URL line. -/
theorem removeLineComments_per_line_witness :
    ("https://x // T".data ∈ KqlParser.splitChar '\n' "https://x // T\nFoo".data)
    ∧ (KqlParser.containsSub "https://x // T".data KqlParser.HTTP_MARKER
        || KqlParser.containsSub "https://x // T".data KqlParser.HTTPS_MARKER) = true
    ∧ "https://x // T".data ∈ KqlParser.splitChar '\n'
        (KqlParser.removeLineComments "https://x // T\nFoo".data) :=
  ⟨by decide, by decide,
   removeLineComments_per_line.2.1 "https://x // T\nFoo".data "https://x // T".data
     (by decide) (by decide)⟩

/-- The issues analyzeConnector records, in closed form. -/
theorem analyzeConnector_issues_eq (sol : String)
    (cache : ParserResolver.ParserCatalog)
    (c : TableExtractor.ConnectorDefinition) :
    (SolutionLoader.analyzeConnector sol cache c).1 =
      if SolutionLoader.connectorAllTables cache c = []
          ∧ (TableExtractor.extractTablesFromConnector c).parserReferences = [] then
        [⟨sol, some (jsOr c.id "unknown"), SolutionLoader.IssueType.no_table_definitions⟩]
      else if SolutionLoader.connectorAllTables cache c = []
          ∧ (TableExtractor.extractTablesFromConnector c).parserReferences ≠ [] then
        [⟨sol, some (jsOr c.id "unknown"), SolutionLoader.IssueType.parser_tables_only⟩]
      else [] := by
  by_cases h1 : SolutionLoader.connectorAllTables cache c = []
      ∧ (TableExtractor.extractTablesFromConnector c).parserReferences = [] <;>
    by_cases h2 : SolutionLoader.connectorAllTables cache c = []
        ∧ (TableExtractor.extractTablesFromConnector c).parserReferences ≠ [] <;>
      simp [SolutionLoader.analyzeConnector, h1, h2]

/-- When a connector has no parser references, its combined table set is
empty exactly when its direct table map is. -/
theorem connectorAllTables_nil_of_no_refs (cache : ParserResolver.ParserCatalog)
    (c : TableExtractor.ConnectorDefinition)
    (h : (TableExtractor.extractTablesFromConnector c).parserReferences = []) :
    (SolutionLoader.connectorAllTables cache c = [] ↔
      (TableExtractor.extractTablesFromConnector c).tables = []) := by
  show addAll (addAll [] ((TableExtractor.extractTablesFromConnector c).tables.map Prod.fst))
      (ParserResolver.resolveMultipleParsers cache
        (TableExtractor.extractTablesFromConnector c).parserReferences) = [] ↔ _
  rw [h]
  show addAll [] ((TableExtractor.extractTablesFromConnector c).tables.map Prod.fst) = [] ↔ _
  rw [addAll_nil_eq_nil_iff, List.map_eq_nil_iff]

/-- Tables reached through parser resolution sit inside the combined set. -/
theorem resolved_mem_connectorAllTables (cache : ParserResolver.ParserCatalog)
    (c : TableExtractor.ConnectorDefinition) (x : String)
    (hx : x ∈ ParserResolver.resolveMultipleParsers cache
        (TableExtractor.extractTablesFromConnector c).parserReferences) :
    x ∈ SolutionLoader.connectorAllTables cache c := by
  show x ∈ addAll _ _
  rw [mem_addAll]
  exact Or.inr hx

/-- C4: for every connector, no_table_definitions is recorded iff extraction
yields zero tables and zero parser references; parser_tables_only is
recorded iff there is at least one parser reference but the final combined
table set is empty; once resolution contributes any table, no
parser_tables_only issue exists for the connector; and analyzeConnector
only ever emits these two non-fatal issue kinds (the error kinds belong to
the external fetch/parse path), so the connector contributes no error. -/
theorem analyzeConnector_issue_conditions (sol : String)
    (cache : ParserResolver.ParserCatalog)
    (c : TableExtractor.ConnectorDefinition) :
    ((∃ i ∈ (SolutionLoader.analyzeConnector sol cache c).1,
        i.issueType = SolutionLoader.IssueType.no_table_definitions) ↔
      ((TableExtractor.extractTablesFromConnector c).tables = []
        ∧ (TableExtractor.extractTablesFromConnector c).parserReferences = []))
    ∧ ((∃ i ∈ (SolutionLoader.analyzeConnector sol cache c).1,
        i.issueType = SolutionLoader.IssueType.parser_tables_only) ↔
      (SolutionLoader.connectorAllTables cache c = []
        ∧ (TableExtractor.extractTablesFromConnector c).parserReferences ≠ []))
    ∧ (ParserResolver.resolveMultipleParsers cache
          (TableExtractor.extractTablesFromConnector c).parserReferences ≠ [] →
        ¬ ∃ i ∈ (SolutionLoader.analyzeConnector sol cache c).1,
            i.issueType = SolutionLoader.IssueType.parser_tables_only)
    ∧ (∀ i ∈ (SolutionLoader.analyzeConnector sol cache c).1,
        i.issueType = SolutionLoader.IssueType.no_table_definitions
        ∨ i.issueType = SolutionLoader.IssueType.parser_tables_only) := by
  rw [show (∃ i ∈ (SolutionLoader.analyzeConnector sol cache c).1,
        i.issueType = SolutionLoader.IssueType.no_table_definitions) ↔ _ from Iff.rfl]
  by_cases h1 : SolutionLoader.connectorAllTables cache c = []
      ∧ (TableExtractor.extractTablesFromConnector c).parserReferences = []
  · rw [analyzeConnector_issues_eq sol cache c, if_pos h1]
    refine ⟨?_, ?_, ?_, ?_⟩
    · simp only [List.mem_singleton]
      constructor
      · intro _
        exact ⟨(connectorAllTables_nil_of_no_refs cache c h1.2).mp h1.1, h1.2⟩
      · intro _
        exact ⟨⟨sol, some (jsOr c.id "unknown"),
          SolutionLoader.IssueType.no_table_definitions⟩, rfl, rfl⟩
    · simp only [List.mem_singleton]
      constructor
      · rintro ⟨i, rfl, hty⟩
        exact absurd hty (by simp)
      · rintro ⟨-, href⟩
        exact absurd h1.2 href
    · intro hres
      have : ParserResolver.resolveMultipleParsers cache
          (TableExtractor.extractTablesFromConnector c).parserReferences = [] := by
        rw [h1.2]
        rfl
      exact absurd this hres
    · rintro i hi
      rw [List.mem_singleton] at hi
      subst hi
      exact Or.inl rfl
  · rw [analyzeConnector_issues_eq sol cache c, if_neg h1]
    by_cases h2 : SolutionLoader.connectorAllTables cache c = []
        ∧ (TableExtractor.extractTablesFromConnector c).parserReferences ≠ []
    · rw [if_pos h2]
      refine ⟨?_, ?_, ?_, ?_⟩
      · simp only [List.mem_singleton]
        constructor
        · rintro ⟨i, rfl, hty⟩
          exact absurd hty (by simp)
        · rintro ⟨htab, href⟩
          exact absurd ⟨h2.1, href⟩ h1
      · simp only [List.mem_singleton]
        constructor
        · intro _
          exact h2
        · intro _
          exact ⟨⟨sol, some (jsOr c.id "unknown"),
            SolutionLoader.IssueType.parser_tables_only⟩, rfl, rfl⟩
      · intro hres
        obtain ⟨x, hx⟩ := List.exists_mem_of_ne_nil _ hres
        have hmem := resolved_mem_connectorAllTables cache c x hx
        rw [h2.1] at hmem
        exact absurd hmem (List.not_mem_nil x)
      · rintro i hi
        rw [List.mem_singleton] at hi
        subst hi
        exact Or.inr rfl
    · rw [if_neg h2]
      refine ⟨?_, ?_, ?_, ?_⟩
      · constructor
        · rintro ⟨i, hi, -⟩
          cases hi
        · rintro ⟨htab, href⟩
          refine absurd ?_ h1
          refine ⟨?_, href⟩
          rw [connectorAllTables_nil_of_no_refs cache c href]
          exact htab
      · constructor
        · rintro ⟨i, hi, -⟩
          cases hi
        · intro h
          exact absurd h h2
      · intro _
        rintro ⟨i, hi, -⟩
        cases hi
      · rintro i hi
        cases hi

/-- Witness for C4's resolution-clears-the-issue part: a connector whose
only query is a parser function name, resolved by the catalog to a table,
ends with no parser_tables_only issue. -/
theorem analyzeConnector_issue_conditions_witness :
    (ParserResolver.resolveMultipleParsers
        [("MyParserFunc", ⟨"MyParserFunc", ["CustomLog_CL"], []⟩)]
        (TableExtractor.extractTablesFromConnector
          ⟨some "conn1", none, some [⟨some "MyParserFunc"⟩], none, none, none, []⟩).parserReferences ≠ [])
    ∧ ¬ ∃ i ∈ (SolutionLoader.analyzeConnector "Sol"
          [("MyParserFunc", ⟨"MyParserFunc", ["CustomLog_CL"], []⟩)]
          ⟨some "conn1", none, some [⟨some "MyParserFunc"⟩], none, none, none, []⟩).1,
        i.issueType = SolutionLoader.IssueType.parser_tables_only :=
  ⟨by decide,
   (analyzeConnector_issue_conditions "Sol"
      [("MyParserFunc", ⟨"MyParserFunc", ["CustomLog_CL"], []⟩)]
      ⟨some "conn1", none, some [⟨some "MyParserFunc"⟩], none, none, none, []⟩).2.2.1
     (by decide)⟩

theorem lookup_append_gen {β : Type} (l1 l2 : List (String × β)) (a : String) :
    List.lookup a (l1 ++ l2) =
      (match List.lookup a l1 with
       | some v => some v
       | none => List.lookup a l2) := by
  induction l1 with
  | nil => simp [List.lookup]
  | cons kv rest ih =>
      obtain ⟨k, v⟩ := kv
      by_cases h : a = k
      · subst h
        simp [List.lookup]
      · have hk : (a == k) = false := beq_eq_false_iff_ne.mpr h
        simp [List.lookup, hk, ih]

theorem lookup_map_update (occ : List (String × Nat)) (s t : String) (n : Nat) :
    List.lookup t (occ.map (fun kv => if kv.1 = s then (s, n + 1) else kv)) =
      (if t = s then (if (List.lookup s occ).isSome then some (n + 1) else none)
       else List.lookup t occ) := by
  induction occ with
  | nil => simp [List.lookup]
  | cons kv rest ih =>
      obtain ⟨k, v⟩ := kv
      rw [List.map_cons]
      by_cases hk : k = s
      · subst hk
        rw [if_pos (show ((k, v) : String × Nat).1 = k from rfl)]
        by_cases ht : t = k
        · subst ht
          simp [List.lookup]
        · have htb : (t == k) = false := beq_eq_false_iff_ne.mpr ht
          simp [List.lookup, htb, ht, ih]
      · rw [if_neg (show ¬ ((k, v) : String × Nat).1 = s from hk)]
        by_cases ht : t = k
        · subst ht
          have hts : ¬ t = s := hk
          simp [List.lookup, hts]
        · have htb : (t == k) = false := beq_eq_false_iff_ne.mpr ht
          have hsb : (s == k) = false := beq_eq_false_iff_ne.mpr (fun he => hk he.symm)
          have hlk : List.lookup s ((k, v) :: rest) = List.lookup s rest := by
            simp [List.lookup, hsb]
          have hlt : List.lookup t ((k, v) :: rest) = List.lookup t rest := by
            simp [List.lookup, htb]
          rw [hlk, hlt]
          simp [List.lookup, htb, ih]

/-- Looking up a counter after one bump: the bumped table's counter is its
previous value plus one, every other counter is untouched. -/
theorem lookup_bumpOcc (occ : List (String × Nat)) (s t : String) :
    List.lookup t (SolutionLoader.bumpOcc occ s) =
      (if t = s then some ((List.lookup s occ).getD 0 + 1)
       else List.lookup t occ) := by
  unfold SolutionLoader.bumpOcc
  cases hls : List.lookup s occ with
  | none =>
      rw [lookup_append_gen]
      by_cases ht : t = s
      · subst ht
        rw [hls]
        simp [List.lookup]
      · have ht2 : (t == s) = false := beq_eq_false_iff_ne.mpr ht
        cases hlt : List.lookup t occ <;> simp [List.lookup, ht, ht2, hlt]
  | some n =>
      rw [lookup_map_update occ s t n]
      by_cases ht : t = s
      · subst ht
        simp [hls]
      · simp [ht]

/-- The counter of a table after folding bumps over a mapping list equals
its starting value plus the number of mappings that carry that table. -/
theorem lookup_occ_foldl (M : List SolutionLoader.TableMapping) :
    ∀ (occ : List (String × Nat)) (t : String),
    (List.lookup t (M.foldl (fun o m => SolutionLoader.bumpOcc o m.tableName) occ)).getD 0 =
      (List.lookup t occ).getD 0 + M.countP (fun m => m.tableName == t) := by
  induction M with
  | nil => intro occ t; simp
  | cons m rest ih =>
      intro occ t
      rw [List.foldl_cons, ih (SolutionLoader.bumpOcc occ m.tableName) t,
        lookup_bumpOcc occ m.tableName t, List.countP_cons]
      by_cases ht : t = m.tableName
      · have hb : (m.tableName == t) = true := beq_iff_eq.mpr ht.symm
        simp [ht, hb]
        omega
      · have hb : (m.tableName == t) = false :=
          beq_eq_false_iff_ne.mpr (fun he => ht he.symm)
        simp [ht, hb]

/-- The mappings analyzeConnector pushes are exactly one record per entry
of the connector's combined table set (in the early-return case that set is
empty, so the map form covers it too). -/
theorem analyzeConnector_mappings_eq (sol : String)
    (cache : ParserResolver.ParserCatalog)
    (c : TableExtractor.ConnectorDefinition) :
    (SolutionLoader.analyzeConnector sol cache c).2 =
      (SolutionLoader.connectorAllTables cache c).map (fun tableName =>
        { solution := sol
          connectorId := jsOr c.id "unknown"
          tableName := tableName
          isUnique := false
          detectionMethod :=
            jsOr (List.lookup tableName (TableExtractor.extractTablesFromConnector c).tables)
              "parser_resolution" }) := by
  by_cases h1 : SolutionLoader.connectorAllTables cache c = []
      ∧ (TableExtractor.extractTablesFromConnector c).parserReferences = []
  · simp [SolutionLoader.analyzeConnector, h1, h1.1]
  · simp [SolutionLoader.analyzeConnector, h1]

/-- The combined table set of a connector has no duplicates. -/
theorem connectorAllTables_nodup (cache : ParserResolver.ParserCatalog)
    (c : TableExtractor.ConnectorDefinition) :
    (SolutionLoader.connectorAllTables cache c).Nodup := by
  exact nodup_addAll _ _ (nodup_addAll _ [] List.nodup_nil)

/-- Each connector contributes exactly one mapping for a table it produces
and none for any other table. -/
theorem countP_analyzeConnector (sol : String)
    (cache : ParserResolver.ParserCatalog)
    (c : TableExtractor.ConnectorDefinition) (t : String) :
    (SolutionLoader.analyzeConnector sol cache c).2.countP (fun m => m.tableName == t) =
      if t ∈ SolutionLoader.connectorAllTables cache c then 1 else 0 := by
  rw [analyzeConnector_mappings_eq, List.countP_map]
  show List.countP (fun x : String => x == t) (SolutionLoader.connectorAllTables cache c)
      = if t ∈ SolutionLoader.connectorAllTables cache c then 1 else 0
  have hnodup := connectorAllTables_nodup cache c
  by_cases hmem : t ∈ SolutionLoader.connectorAllTables cache c
  · rw [if_pos hmem]
    have h1 : (SolutionLoader.connectorAllTables cache c).count t = 1 :=
      List.count_eq_one_of_mem hnodup hmem
    simpa [List.count] using h1
  · rw [if_neg hmem]
    have h0 : (SolutionLoader.connectorAllTables cache c).count t = 0 :=
      List.count_eq_zero.mpr hmem
    simpa [List.count] using h0

/-- Per solution, the number of pushed mappings for a table equals the
number of its connectors producing that table. -/
theorem countP_solutionMappings (sol : SolutionLoader.SolutionEntry) (t : String) :
    (SolutionLoader.solutionMappings sol).countP (fun m => m.tableName == t) =
      (sol.connectors.filter
        (fun c => t ∈ SolutionLoader.connectorAllTables sol.catalog c)).length := by
  show ((sol.connectors.map (fun c => (SolutionLoader.analyzeConnector sol.name sol.catalog c).2)).flatten).countP _ = _
  induction sol.connectors with
  | nil => simp
  | cons c rest ih =>
      rw [List.map_cons, List.flatten_cons, List.countP_append, ih,
        countP_analyzeConnector, List.filter_cons]
      by_cases hmem : t ∈ SolutionLoader.connectorAllTables sol.catalog c
      · have hp : decide (t ∈ SolutionLoader.connectorAllTables sol.catalog c) = true :=
          decide_eq_true hmem
        simp [List.filter_cons, hp, hmem]
        omega
      · simp [hmem]

/-- Across the whole corpus, the number of pushed mappings for a table is
the total number of producing connectors. -/
theorem countP_allMappings (corpus : List SolutionLoader.SolutionEntry) (t : String) :
    ((corpus.map SolutionLoader.solutionMappings).flatten).countP
        (fun m => m.tableName == t) =
      (corpus.map (fun sol =>
        (sol.connectors.filter
          (fun c => t ∈ SolutionLoader.connectorAllTables sol.catalog c)).length)).sum := by
  induction corpus with
  | nil => simp
  | cons sol rest ih =>
      rw [List.map_cons, List.flatten_cons, List.countP_append, ih,
        countP_solutionMappings, List.map_cons, List.sum_cons]

/-- C5: after the corpus-wide pass, a mapping's isUnique flag is true iff
exactly one connector in the whole corpus produces its table; a table
produced by two or more connectors is marked non-unique on every mapping
carrying it. -/
theorem analyzeAll_isUnique_iff_one_producer
    (corpus : List SolutionLoader.SolutionEntry) :
    ∀ m ∈ (SolutionLoader.analyzeAll corpus).2,
      (m.isUnique = true ↔
        (corpus.map (fun sol =>
          (sol.connectors.filter
            (fun c => m.tableName ∈ SolutionLoader.connectorAllTables sol.catalog c)).length)).sum = 1) := by
  intro m hm
  have hm2 : m ∈ SolutionLoader.calculateTableUniqueness
      ((corpus.map SolutionLoader.solutionMappings).flatten)
      (SolutionLoader.occFold ((corpus.map SolutionLoader.solutionMappings).flatten)) := hm
  rw [SolutionLoader.calculateTableUniqueness, List.mem_map] at hm2
  obtain ⟨m0, hm0, rfl⟩ := hm2
  have htab : (({ m0 with
      isUnique := (List.lookup m0.tableName
        (SolutionLoader.occFold ((corpus.map SolutionLoader.solutionMappings).flatten))).getD 0 = 1 } :
      SolutionLoader.TableMapping)).tableName = m0.tableName := rfl
  rw [htab]
  show (decide ((List.lookup m0.tableName
      (SolutionLoader.occFold ((corpus.map SolutionLoader.solutionMappings).flatten))).getD 0 = 1) = true) ↔ _
  rw [decide_eq_true_iff]
  have hocc := lookup_occ_foldl ((corpus.map SolutionLoader.solutionMappings).flatten) [] m0.tableName
  rw [SolutionLoader.occFold, hocc]
  rw [countP_allMappings corpus m0.tableName]
  simp [List.lookup]

/-- The two-connector corpus used as C5's witness: both connectors carry a
graph query whose head is the Syslog table. -/
def uniqWitnessCorpus : List SolutionLoader.SolutionEntry :=
  [⟨"Sol", [],
    [⟨some "c1", none, some [⟨some "Syslog"⟩], none, none, none, []⟩,
     ⟨some "c2", none, some [⟨some "Syslog"⟩], none, none, none, []⟩]⟩]

/-- The Syslog mapping the witness corpus produces for its first connector. -/
def uniqWitnessMapping : SolutionLoader.TableMapping :=
  { solution := "Sol", connectorId := "c1", tableName := "Syslog",
    isUnique := false, detectionMethod := "graphQueries.0.baseQuery" }

/-- Witness for C5: two connectors in one solution both produce Syslog, and
the resulting mapping is marked non-unique, matching a producer count of
two. -/
theorem analyzeAll_isUnique_iff_one_producer_witness :
    (uniqWitnessMapping ∈ (SolutionLoader.analyzeAll uniqWitnessCorpus).2)
    ∧ ((uniqWitnessMapping.isUnique = true) ↔
      (uniqWitnessCorpus.map (fun sol =>
        (sol.connectors.filter
          (fun c => uniqWitnessMapping.tableName ∈
            SolutionLoader.connectorAllTables sol.catalog c)).length)).sum = 1) :=
  ⟨by decide,
   analyzeAll_isUnique_iff_one_producer uniqWitnessCorpus uniqWitnessMapping (by decide)⟩
